import Mathlib

/-!
Verification of the reversible edge-shift cipher and the column-driven
rewrite engine of `Auto_sanitization.py` / `Auto_sanitization_manual.py`.

Strings are embedded as lists of Unicode code points (`List Nat`), the
representation Python strings present to the program: indexing, equality
and lowercasing in the source all act on code points.  `codes` converts a
Lean string literal to that representation for concrete test inputs.
-/

def codes (s : String) : List Nat :=
  s.data.map (fun c => c.toNat)

/-- The space character, the only character `shift_edges_chars` skips. -/
def spaceCode : Nat := 32

/--
`_forward_map` from the source: built by three loops, it maps each
lowercase letter, uppercase letter and digit to its successor within its
range, wrapping the last element to the first (`z→a`, `Z→A`, `9→0`); any
other code point is absent from the dict, modelled here as `none`.
-/
def forward_map (c : Nat) : Option Nat :=
  if 97 ≤ c ∧ c ≤ 122 then some (if c = 122 then 97 else c + 1)
  else if 65 ≤ c ∧ c ≤ 90 then some (if c = 90 then 65 else c + 1)
  else if 48 ≤ c ∧ c ≤ 57 then some (if c = 57 then 48 else c + 1)
  else none

/--
`_backward_map` from the source: the loops insert `nxt_c ↦ c` for every
`c ↦ nxt_c` of the forward map, so each range rotates one step the other
way (`a→z`, `A→Z`, `0→9`); other code points are absent.
-/
def backward_map (c : Nat) : Option Nat :=
  if 97 ≤ c ∧ c ≤ 122 then some (if c = 97 then 122 else c - 1)
  else if 65 ≤ c ∧ c ≤ 90 then some (if c = 65 then 90 else c - 1)
  else if 48 ≤ c ∧ c ≤ 57 then some (if c = 48 then 57 else c - 1)
  else none

/-- `shift_char_forward`: underscore fixed, else `_forward_map.get(c, c)`. -/
def shift_char_forward (c : Nat) : Nat :=
  if c = 95 then c else (forward_map c).getD c

/-- `shift_char_backward`: underscore fixed, else `_backward_map.get(c, c)`. -/
def shift_char_backward (c : Nat) : Nat :=
  if c = 95 then c else (backward_map c).getD c

/--
The first while loop of `shift_edges_chars`: walk the array from the
front, applying `shift_func` to non-space entries until `count` of them
have been shifted (spaces are passed over without consuming the budget).
-/
def shiftFirstK (f : Nat → Nat) : Nat → List Nat → List Nat
  | _, [] => []
  | 0, l => l
  | k + 1, c :: rest =>
      if c = spaceCode then c :: shiftFirstK f (k + 1) rest
      else f c :: shiftFirstK f k rest

/-- Number of non-space entries of a list (the characters the edge scans
count). -/
def cntNS : List Nat → Nat
  | [] => 0
  | c :: rest => (if c = spaceCode then 0 else 1) + cntNS rest

/--
The second while loop of `shift_edges_chars`: walk the array from the
back, applying `shift_func` to the last `count` non-space entries.  A
position is shifted by that loop exactly when it holds a non-space entry
and fewer than `count` non-space entries lie strictly to its right, which
is what this front-to-back recursion computes.  `shiftLastK_eq_reverse`
below checks this definition against the literal back-to-front traversal
(the forward loop run on the reversed array).
-/
def shiftLastK (f : Nat → Nat) (k : Nat) : List Nat → List Nat
  | [] => []
  | c :: rest =>
      (if c ≠ spaceCode ∧ cntNS rest < k then f c else c) :: shiftLastK f k rest

/--
`shift_edges_chars(s, shift_func, count)`: shift the first `count`
non-space characters (first loop), then the last `count` non-space
characters (second loop, acting on the array the first loop left behind),
and reassemble.  The two scans are independent; on strings with fewer
than `2*count` non-space characters some positions are shifted by both.
-/
def shift_edges_chars (s : List Nat) (f : Nat → Nat) (count : Nat) : List Nat :=
  shiftLastK f count (shiftFirstK f count s)

/-!
### The field sanitizer

`sanitize` receives a cell value that may be absent; an absent value is
Python `None`.  Present values reach the function already stringified (the
`str(s)` in the source is the identity on strings), so the domain is
embedded as `Option (List Nat)`.
-/

/--
The code points Python `str.strip()` removes and `str.isspace()` accepts:
ASCII whitespace and separators plus the Unicode space characters.  `not
s.strip()` in the source is true exactly when every character of `s` is
one of these (in particular for the empty string).
-/
def isPySpace (c : Nat) : Bool :=
  (9 ≤ c && c ≤ 13) || (28 ≤ c && c ≤ 32) || c == 133 || c == 160 ||
    c == 5760 || (8192 ≤ c && c ≤ 8202) || c == 8232 || c == 8233 ||
    c == 8239 || c == 8287 || c == 12288

/-- Python `str.lower()` on the code points the program compares against
(ASCII): uppercase letters move down by 32, everything else is unchanged. -/
def lowerCode (c : Nat) : Nat :=
  if 65 ≤ c ∧ c ≤ 90 then c + 32 else c

/-- `s.lower()` on an embedded string. -/
def lowerStr (s : List Nat) : List Nat :=
  s.map lowerCode

/--
`sanitize(s)`: `None` becomes `"N/A"`; a string that strips to empty or
whose lowercasing is `"nan"` or `"none"` becomes `"N/A"`; anything else is
passed to `shift_edges_chars` with the forward shift and the default
count of 2.
-/
def sanitize (v : Option (List Nat)) : List Nat :=
  match v with
  | none => codes "N/A"
  | some s =>
      if s.all isPySpace ∨ lowerStr s = codes "nan" ∨ lowerStr s = codes "none" then
        codes "N/A"
      else shift_edges_chars s shift_char_forward 2

/--
`desanitize(s)`: `None` becomes the empty string; any present value is
passed to `shift_edges_chars` with the backward shift and count 2.  There
is no sentinel check on this path.
-/
def desanitize (v : Option (List Nat)) : List Nat :=
  match v with
  | none => []
  | some s => shift_edges_chars s shift_char_backward 2

/-!
### Memoization

The caches in the source are Python dicts keyed by the raw cell value;
they are embedded as association lists queried with `List.lookup`, newest
entry first (which entry wins is irrelevant: lookup hits the first match,
exactly as a dict holds one binding per key).
-/

/-- One memoized call: `memo_sanitize(val, cache)` returns the cached
result when `val` is a key of `cache` and otherwise computes
`sanitize(val)`, stores it, and returns it.  The pair is the returned
value together with the cache the call leaves behind. -/
def memo_sanitize (val : Option (List Nat)) (cache : List (Option (List Nat) × List Nat)) :
    List Nat × List (Option (List Nat) × List Nat) :=
  match List.lookup val cache with
  | some r => (r, cache)
  | none => (sanitize val, (val, sanitize val) :: cache)

/-- A column pass: fold `memo_sanitize` over the column values, threading
the cache, and additionally count how many calls actually computed
`sanitize` (cache misses). -/
def memoRun (vals : List (Option (List Nat))) (cache : List (Option (List Nat) × List Nat)) :
    List (List Nat) × List (Option (List Nat) × List Nat) × Nat :=
  match vals with
  | [] => ([], cache, 0)
  | v :: rest =>
      match List.lookup v cache with
      | some r =>
          let out := memoRun rest cache
          (r :: out.1, out.2.1, out.2.2)
      | none =>
          let out := memoRun rest ((v, sanitize v) :: cache)
          (sanitize v :: out.1, out.2.1, out.2.2 + 1)

/-!
### Column policy and the streaming rewrite engine

`SANITIZATION_COLUMNS` is the module-level dict; dicts with distinct keys
are embedded as association lists.  `DESANITIZATION_COLUMNS` is the
default of the manual variant.
-/

def SANITIZATION_COLUMNS : List (List Nat × List Nat) :=
  [(codes "external part", codes "external_part_sanitized"),
   (codes "ex_part", codes "external_part_sanitized"),
   (codes "internal part", codes "internal_part_sanitized"),
   (codes "internal part(old)", codes "internal part(old)_sanitized"),
   (codes "internal part(new)", codes "internal part(new)_sanitized")]

def DESANITIZATION_COLUMNS : List (List Nat × List Nat) :=
  [(codes "external part id", codes "External Part")]

/-- `get_sanitized_column_name(original)`:
`SANITIZATION_COLUMNS.get(original.lower(), original + "_sanitized")`. -/
def get_sanitized_column_name (original : List Nat) : List Nat :=
  (List.lookup (lowerStr original) SANITIZATION_COLUMNS).getD (original ++ codes "_sanitized")

/-- `get_desanitized_column_name(original)` of the manual variant:
`DESANITIZATION_COLUMNS.get(original.lower(), original + "_desanitized")`. -/
def get_desanitized_column_name (original : List Nat) : List Nat :=
  (List.lookup (lowerStr original) DESANITIZATION_COLUMNS).getD (original ++ codes "_desanitized")

/-- The header test of the streaming loop:
`col_name is not None and col_name.lower() in valid_columns`, where
`valid_columns = set(SANITIZATION_COLUMNS.keys())`. -/
def headerMatches (cell : Option (List Nat)) : Bool :=
  match cell with
  | none => false
  | some name => (List.lookup (lowerStr name) SANITIZATION_COLUMNS).isSome

/-- One header cell of the output: a matched column name is replaced by
`get_sanitized_column_name(name)` in place; everything else (including a
`None` cell) passes through. -/
def sanitizeHeaderCell (cell : Option (List Nat)) : Option (List Nat) :=
  match cell with
  | none => none
  | some name =>
      if (List.lookup (lowerStr name) SANITIZATION_COLUMNS).isSome then
        some (get_sanitized_column_name name)
      else some name

/-- The header row the streaming engine writes: the input header with each
matched cell rewritten in place (`new_header` in the source is built by
appending one output cell per input cell). -/
def sanitizeHeaderRow (header : List (Option (List Nat))) : List (Option (List Nat)) :=
  header.map sanitizeHeaderCell

/-- `processed_indices`: the column positions whose header cell matched. -/
def processedIndices (header : List (Option (List Nat))) : List Nat :=
  (header.enum.filter (fun p => headerMatches p.2)).map (fun p => p.1)

/--
One data row of the output: `new_row` is built by walking the input row
and replacing the cells at processed positions by their sanitized value;
other cells pass through unchanged.  The memoized call is written here as
a plain `sanitize`: `memo_sanitize` returns exactly `sanitize` of its
argument whenever the cache holds only earlier `memo_sanitize` results
(proved below), so the emitted row does not depend on the cache state.
-/
def sanitizeRowFrom (procIdx : List Nat) (i : Nat) : List (Option (List Nat)) →
    List (Option (List Nat))
  | [] => []
  | v :: rest =>
      (if i ∈ procIdx then some (sanitize v) else v) :: sanitizeRowFrom procIdx (i + 1) rest

def sanitizeDataRow (procIdx : List Nat) (row : List (Option (List Nat))) :
    List (Option (List Nat)) :=
  sanitizeRowFrom procIdx 0 row

/-- The set of inputs the C3 claim designates for the sentinel: absent, or
a string that is empty, all-whitespace, or case-insensitively `"nan"` or
`"none"`. -/
def sentinel_input (v : Option (List Nat)) : Bool :=
  match v with
  | none => true
  | some s =>
      s.isEmpty || s.all isPySpace || lowerStr s == codes "nan" || lowerStr s == codes "none"

/-- The three rotated ranges of the shift maps: lowercase, uppercase,
digits. -/
def inShiftRanges (c : Nat) : Prop :=
  (97 ≤ c ∧ c ≤ 122) ∨ (65 ≤ c ∧ c ≤ 90) ∨ (48 ≤ c ∧ c ≤ 57)

instance (c : Nat) : Decidable (inShiftRanges c) := by
  unfold inShiftRanges
  infer_instance

/-- A cache that holds only results of earlier memoized calls: every
binding pairs a value with its `sanitize` image. -/
def ValidCache (cache : List (Option (List Nat) × List Nat)) : Prop :=
  ∀ p ∈ cache, p.2 = sanitize p.1

/-! ### Basic lemmas about the edge scans -/

theorem shiftFirstK_nil (f : Nat → Nat) (k : Nat) : shiftFirstK f k [] = [] := by
  cases k <;> rfl

theorem shiftFirstK_zero (f : Nat → Nat) (l : List Nat) : shiftFirstK f 0 l = l := by
  cases l <;> rfl

theorem shiftFirstK_cons (f : Nat → Nat) (k : Nat) (c : Nat) (rest : List Nat) :
    shiftFirstK f (k + 1) (c :: rest) =
      if c = spaceCode then c :: shiftFirstK f (k + 1) rest
      else f c :: shiftFirstK f k rest := rfl

theorem shiftLastK_cons (f : Nat → Nat) (k : Nat) (c : Nat) (rest : List Nat) :
    shiftLastK f k (c :: rest) =
      (if c ≠ spaceCode ∧ cntNS rest < k then f c else c) :: shiftLastK f k rest := rfl

theorem length_shiftFirstK (f : Nat → Nat) (k : Nat) (l : List Nat) :
    (shiftFirstK f k l).length = l.length := by
  induction l generalizing k with
  | nil => simp [shiftFirstK_nil]
  | cons c rest ih =>
    cases k with
    | zero => simp [shiftFirstK_zero]
    | succ k =>
      rw [shiftFirstK_cons]
      by_cases h : c = spaceCode <;> simp [h, ih]

theorem length_shiftLastK (f : Nat → Nat) (k : Nat) (l : List Nat) :
    (shiftLastK f k l).length = l.length := by
  induction l with
  | nil => rfl
  | cons c rest ih => rw [shiftLastK_cons]; simp [ih]

/-- A function whose space-fixing behavior matches the scans: it maps the
space character, and only the space character, to a space.  Both shift
functions of the source satisfy this. -/
def PreservesSpace (f : Nat → Nat) : Prop :=
  ∀ c, f c = spaceCode ↔ c = spaceCode

theorem preservesSpace_ne {f : Nat → Nat} (hf : PreservesSpace f) {c : Nat}
    (h : c ≠ spaceCode) : f c ≠ spaceCode :=
  fun hc => h ((hf c).mp hc)

theorem cntNS_shiftFirstK {f : Nat → Nat} (hf : PreservesSpace f) (k : Nat) (l : List Nat) :
    cntNS (shiftFirstK f k l) = cntNS l := by
  induction l generalizing k with
  | nil => simp [shiftFirstK_nil]
  | cons c rest ih =>
    cases k with
    | zero => simp [shiftFirstK_zero]
    | succ k =>
      rw [shiftFirstK_cons]
      by_cases h : c = spaceCode
      · simp [h, cntNS, ih]
      · simp [h, cntNS, preservesSpace_ne hf h, ih]

theorem cntNS_shiftLastK {f : Nat → Nat} (hf : PreservesSpace f) (k : Nat) (l : List Nat) :
    cntNS (shiftLastK f k l) = cntNS l := by
  induction l with
  | nil => rfl
  | cons c rest ih =>
    rw [shiftLastK_cons]
    by_cases h : c = spaceCode
    · simp [h, cntNS, ih]
    · by_cases h2 : cntNS rest < k
      · simp [h, h2, cntNS, preservesSpace_ne hf h, ih]
      · simp [h, h2, cntNS, ih]

/-- The positions holding spaces, as a boolean mask: entry `i` is `true`
exactly when the character at position `i` is a space. -/
def spaceMask : List Nat → List Bool
  | [] => []
  | c :: rest => (c == spaceCode) :: spaceMask rest

theorem spaceMask_shiftFirstK {f : Nat → Nat} (hf : PreservesSpace f) (k : Nat) (l : List Nat) :
    spaceMask (shiftFirstK f k l) = spaceMask l := by
  induction l generalizing k with
  | nil => simp [shiftFirstK_nil]
  | cons c rest ih =>
    cases k with
    | zero => simp [shiftFirstK_zero]
    | succ k =>
      rw [shiftFirstK_cons]
      by_cases h : c = spaceCode
      · simp [h, spaceMask, ih]
      · simp [h, spaceMask, preservesSpace_ne hf h, ih]

theorem spaceMask_shiftLastK {f : Nat → Nat} (hf : PreservesSpace f) (k : Nat) (l : List Nat) :
    spaceMask (shiftLastK f k l) = spaceMask l := by
  induction l with
  | nil => rfl
  | cons c rest ih =>
    rw [shiftLastK_cons]
    by_cases h : c = spaceCode
    · simp [h, spaceMask, ih]
    · by_cases h2 : cntNS rest < k
      · simp [h, h2, spaceMask, preservesSpace_ne hf h, ih]
      · simp [h, h2, spaceMask, ih]

/-! ### Inverse and commutation lemmas -/

theorem shiftFirstK_shiftFirstK {f g : Nat → Nat} (hf : PreservesSpace f)
    (hgf : ∀ c, g (f c) = c) (k : Nat) (l : List Nat) :
    shiftFirstK g k (shiftFirstK f k l) = l := by
  induction l generalizing k with
  | nil => simp [shiftFirstK_nil]
  | cons c rest ih =>
    cases k with
    | zero => simp [shiftFirstK_zero]
    | succ k =>
      rw [shiftFirstK_cons]
      by_cases h : c = spaceCode
      · simp only [if_pos h, shiftFirstK_cons, if_pos h, ih]
      · simp only [if_neg h, shiftFirstK_cons, if_neg (preservesSpace_ne hf h), hgf, ih]

theorem shiftLastK_shiftLastK {f g : Nat → Nat} (hf : PreservesSpace f)
    (hgf : ∀ c, g (f c) = c) (k : Nat) (l : List Nat) :
    shiftLastK g k (shiftLastK f k l) = l := by
  induction l with
  | nil => rfl
  | cons c rest ih =>
    rw [shiftLastK_cons, shiftLastK_cons, cntNS_shiftLastK hf, ih]
    by_cases h : c = spaceCode
    · simp [h]
    · by_cases h2 : cntNS rest < k
      · simp [h, h2, preservesSpace_ne hf h, hgf]
      · simp [h, h2]

theorem shiftLastK_nil (f : Nat → Nat) (k : Nat) : shiftLastK f k [] = [] := rfl

theorem shiftFirstK_shiftLastK_comm {f g : Nat → Nat} (hf : PreservesSpace f)
    (hg : PreservesSpace g) (hcomm : ∀ c, f (g c) = g (f c)) (k k2 : Nat) (l : List Nat) :
    shiftFirstK g k (shiftLastK f k2 l) = shiftLastK f k2 (shiftFirstK g k l) := by
  induction l generalizing k with
  | nil => simp [shiftFirstK_nil, shiftLastK_nil]
  | cons c rest ih =>
    cases k with
    | zero => simp [shiftFirstK_zero]
    | succ k =>
      by_cases h : c = spaceCode
      · subst h
        simp [shiftLastK_cons, shiftFirstK_cons, cntNS_shiftFirstK hg, ih]
      · by_cases h2 : cntNS rest < k2
        · simp [shiftLastK_cons, shiftFirstK_cons, h, h2, preservesSpace_ne hf h,
            preservesSpace_ne hg h, cntNS_shiftFirstK hg, hcomm, ih]
        · simp [shiftLastK_cons, shiftFirstK_cons, h, h2, preservesSpace_ne hg h,
            cntNS_shiftFirstK hg, ih]

/-! ### The back scan agrees with the literal back-to-front traversal -/

theorem cntNS_append (xs ys : List Nat) : cntNS (xs ++ ys) = cntNS xs + cntNS ys := by
  induction xs with
  | nil => simp [cntNS]
  | cons c rest ih => simp [cntNS, ih]; omega

theorem cntNS_reverse (l : List Nat) : cntNS l.reverse = cntNS l := by
  induction l with
  | nil => rfl
  | cons c rest ih => rw [List.reverse_cons, cntNS_append]; simp [cntNS, ih]; omega

theorem shiftFirstK_append_single (f : Nat → Nat) (k : Nat) (xs : List Nat) (c : Nat) :
    shiftFirstK f k (xs ++ [c]) =
      shiftFirstK f k xs ++ [if c ≠ spaceCode ∧ cntNS xs < k then f c else c] := by
  induction xs generalizing k with
  | nil =>
    cases k with
    | zero => simp [shiftFirstK_zero, cntNS]
    | succ k =>
      simp only [List.nil_append, shiftFirstK_cons, shiftFirstK_nil]
      by_cases h : c = spaceCode
      · simp [h, cntNS]
      · simp [h, cntNS]
  | cons x xs ih =>
    cases k with
    | zero => simp [shiftFirstK_zero]
    | succ k =>
      simp only [List.cons_append, shiftFirstK_cons]
      by_cases h : x = spaceCode
      · rw [if_pos h, if_pos h, ih]
        simp [cntNS, h]
      · rw [if_neg h, if_neg h, ih]
        simp only [cntNS, h, if_false, List.cons_append, List.cons.injEq, true_and]
        by_cases hc : c = spaceCode
        · simp [hc]
        · by_cases h3 : cntNS xs < k
          · have h4 : 1 + cntNS xs < k + 1 := by omega
            simp [hc, h3, h4]
          · have h4 : ¬(1 + cntNS xs < k + 1) := by omega
            simp [hc, h3, h4]

/-- The source implements the "shift the last `count` non-space characters"
loop by walking the array from its end; that traversal is the front scan
run on the reversed array.  `shiftLastK` computes the same function. -/
theorem shiftLastK_eq_reverse (f : Nat → Nat) (k : Nat) (l : List Nat) :
    shiftLastK f k l = (shiftFirstK f k l.reverse).reverse := by
  have main : ∀ l : List Nat, shiftFirstK f k l.reverse = (shiftLastK f k l).reverse := by
    intro l
    induction l with
    | nil => simp [shiftFirstK_nil, shiftLastK_nil]
    | cons c rest ih =>
      rw [List.reverse_cons, shiftFirstK_append_single, ih, cntNS_reverse,
        shiftLastK_cons, List.reverse_cons]
  rw [main, List.reverse_reverse]

/-! ### Character-level facts about the two shift maps -/

/-- `shift_char_forward` written as one flat case split on `c`. -/
theorem shift_char_forward_eq (c : Nat) :
    shift_char_forward c =
      if 97 ≤ c ∧ c ≤ 122 then (if c = 122 then 97 else c + 1)
      else if 65 ≤ c ∧ c ≤ 90 then (if c = 90 then 65 else c + 1)
      else if 48 ≤ c ∧ c ≤ 57 then (if c = 57 then 48 else c + 1)
      else c := by
  unfold shift_char_forward forward_map
  split_ifs <;> simp_all

/-- `shift_char_backward` written as one flat case split on `c`. -/
theorem shift_char_backward_eq (c : Nat) :
    shift_char_backward c =
      if 97 ≤ c ∧ c ≤ 122 then (if c = 97 then 122 else c - 1)
      else if 65 ≤ c ∧ c ≤ 90 then (if c = 65 then 90 else c - 1)
      else if 48 ≤ c ∧ c ≤ 57 then (if c = 48 then 57 else c - 1)
      else c := by
  unfold shift_char_backward backward_map
  split_ifs <;> simp_all

theorem shift_char_backward_forward (c : Nat) :
    shift_char_backward (shift_char_forward c) = c := by
  rw [shift_char_forward_eq]
  split_ifs <;> rw [shift_char_backward_eq] <;> split_ifs <;> omega

theorem shift_char_forward_backward (c : Nat) :
    shift_char_forward (shift_char_backward c) = c := by
  rw [shift_char_backward_eq]
  split_ifs <;> rw [shift_char_forward_eq] <;> split_ifs <;> omega

theorem preservesSpace_shift_char_forward : PreservesSpace shift_char_forward := by
  intro c
  unfold spaceCode
  rw [shift_char_forward_eq]
  split_ifs <;> omega

theorem preservesSpace_shift_char_backward : PreservesSpace shift_char_backward := by
  intro c
  unfold spaceCode
  rw [shift_char_backward_eq]
  split_ifs <;> omega

theorem shift_char_comm (c : Nat) :
    shift_char_forward (shift_char_backward c) = shift_char_backward (shift_char_forward c) := by
  rw [shift_char_forward_backward, shift_char_backward_forward]

/-- The round trip holds for any shift count, not only the default 2. -/
theorem shift_edges_chars_round_trip (s : List Nat) (count : Nat) :
    shift_edges_chars (shift_edges_chars s shift_char_forward count) shift_char_backward count
      = s := by
  unfold shift_edges_chars
  rw [shiftFirstK_shiftLastK_comm preservesSpace_shift_char_forward
      preservesSpace_shift_char_backward shift_char_comm,
    shiftFirstK_shiftFirstK preservesSpace_shift_char_forward shift_char_backward_forward,
    shiftLastK_shiftLastK preservesSpace_shift_char_forward shift_char_backward_forward]

/-- C1: for every string `s`, the edge cipher applied forward and then
backward with `k = 2` returns `s` exactly:
`shift_edges_chars (shift_edges_chars s forward 2) backward 2 = s`, with
no restriction on length, spacing, or overlap of the two edge scans. -/
theorem spec_C1_round_trip (s : List Nat) :
    shift_edges_chars (shift_edges_chars s shift_char_forward 2) shift_char_backward 2 = s :=
  shift_edges_chars_round_trip s 2

/-- C2: the two character shifts are mutually inverse on every code point;
on each of the three ranges (lowercase, uppercase, digits) they rotate one
position with wraparound (`z→a`, `Z→A`, `9→0` forward and back), and every
code point outside the three ranges, underscore and whitespace included,
is a fixed point of both. -/
theorem spec_C2_char_bijection (c : Nat) :
    shift_char_backward (shift_char_forward c) = c ∧
    shift_char_forward (shift_char_backward c) = c ∧
    (97 ≤ c → c ≤ 122 → shift_char_forward c = if c = 122 then 97 else c + 1) ∧
    (97 ≤ c → c ≤ 122 → shift_char_backward c = if c = 97 then 122 else c - 1) ∧
    (65 ≤ c → c ≤ 90 → shift_char_forward c = if c = 90 then 65 else c + 1) ∧
    (65 ≤ c → c ≤ 90 → shift_char_backward c = if c = 65 then 90 else c - 1) ∧
    (48 ≤ c → c ≤ 57 → shift_char_forward c = if c = 57 then 48 else c + 1) ∧
    (48 ≤ c → c ≤ 57 → shift_char_backward c = if c = 48 then 57 else c - 1) ∧
    (¬ inShiftRanges c → shift_char_forward c = c ∧ shift_char_backward c = c) := by
  refine ⟨shift_char_backward_forward c, shift_char_forward_backward c, ?_, ?_, ?_, ?_, ?_,
    ?_, ?_⟩
  · intro h1 h2; rw [shift_char_forward_eq]; split_ifs <;> omega
  · intro h1 h2; rw [shift_char_backward_eq]; split_ifs <;> omega
  · intro h1 h2; rw [shift_char_forward_eq]; split_ifs <;> omega
  · intro h1 h2; rw [shift_char_backward_eq]; split_ifs <;> omega
  · intro h1 h2; rw [shift_char_forward_eq]; split_ifs <;> omega
  · intro h1 h2; rw [shift_char_backward_eq]; split_ifs <;> omega
  · intro h
    unfold inShiftRanges at h
    constructor
    · rw [shift_char_forward_eq]; split_ifs <;> omega
    · rw [shift_char_backward_eq]; split_ifs <;> omega

/-- Witness for C2 at the wrap points of the three ranges and at the
underscore and the space. -/
theorem spec_C2_char_bijection_witness :
    shift_char_forward 122 = 97 ∧ shift_char_backward 97 = 122 ∧
    shift_char_forward 90 = 65 ∧ shift_char_backward 65 = 90 ∧
    shift_char_forward 57 = 48 ∧ shift_char_backward 48 = 57 ∧
    shift_char_forward 95 = 95 ∧ shift_char_backward 95 = 95 ∧
    shift_char_forward 32 = 32 ∧ shift_char_backward 32 = 32 := by
  have h122 := (spec_C2_char_bijection 122).2.2.1 (by decide) (by decide)
  have h97 := (spec_C2_char_bijection 97).2.2.2.1 (by decide) (by decide)
  have h90 := (spec_C2_char_bijection 90).2.2.2.2.1 (by decide) (by decide)
  have h65 := (spec_C2_char_bijection 65).2.2.2.2.2.1 (by decide) (by decide)
  have h57 := (spec_C2_char_bijection 57).2.2.2.2.2.2.1 (by decide) (by decide)
  have h48 := (spec_C2_char_bijection 48).2.2.2.2.2.2.2.1 (by decide) (by decide)
  have h95 := (spec_C2_char_bijection 95).2.2.2.2.2.2.2.2 (by decide)
  have h32 := (spec_C2_char_bijection 32).2.2.2.2.2.2.2.2 (by decide)
  refine ⟨by simpa using h122, by simpa using h97, by simpa using h90, by simpa using h65,
    by simpa using h57, by simpa using h48, h95.1, h95.2, h32.1, h32.2⟩

/-! ### C3: the sentinel condition of sanitize -/

/-- Counterexample to C3 as stated: `sanitize` also returns the string
`"N/A"` on the input `"M/Z"`, which is neither absent, blank, `"nan"` nor
`"none"` — the forward edge shift maps `M/Z` to `N/A` (`M→N`, `/` fixed,
`Z→A`).  So "returns the sentinel exactly when" fails in the only-if
direction. -/
theorem spec_C3_counterexample :
    sanitize (some (codes "M/Z")) = codes "N/A" ∧
      sentinel_input (some (codes "M/Z")) = false := by
  constructor <;> decide

/-- C3 as amended: `sanitize` returns `"N/A"` on every designated sentinel
input (absent, empty, all-whitespace, or case-insensitively `"nan"` or
`"none"`), and on every other input it returns the forward edge shift of
the stringified value — which may itself coincide with the string
`"N/A"`. -/
theorem spec_C3_sentinel (v : Option (List Nat)) :
    (sentinel_input v = true → sanitize v = codes "N/A") ∧
    (∀ s, v = some s → sentinel_input v = false →
      sanitize v = shift_edges_chars s shift_char_forward 2) := by
  constructor
  · intro h
    match v with
    | none => rfl
    | some s =>
        simp only [sentinel_input, Bool.or_eq_true, beq_iff_eq, List.isEmpty_iff] at h
        have hcond : s.all isPySpace ∨ lowerStr s = codes "nan" ∨ lowerStr s = codes "none" := by
          rcases h with ((h | h) | h) | h
          · subst h; left; rfl
          · left; exact h
          · right; left; exact h
          · right; right; exact h
        simp only [sanitize]
        rw [if_pos hcond]
  · intro s hs h
    subst hs
    simp only [sentinel_input, Bool.or_eq_false_iff, beq_eq_false_iff_ne, ne_eq] at h
    simp [sanitize, h.1.1.2, h.1.2, h.2]

/-- Witness for the amended C3: the sentinel branch at an absent value and
at a blank string, and the cipher branch at `"ab"`. -/
theorem spec_C3_sentinel_witness :
    sanitize none = codes "N/A" ∧
    sanitize (some (codes "   ")) = codes "N/A" ∧
    sanitize (some (codes "ab")) = shift_edges_chars (codes "ab") shift_char_forward 2 := by
  refine ⟨(spec_C3_sentinel none).1 (by decide),
    (spec_C3_sentinel (some (codes "   "))).1 (by decide),
    (spec_C3_sentinel (some (codes "ab"))).2 (codes "ab") rfl (by decide)⟩

/-- C4: `desanitize` maps an absent value to the empty string (asymmetric
with `sanitize`, which maps it to `"N/A"`), and every present value —
including the literal `"N/A"` — is fed through the backward edge shift
with no sentinel interception on this path. -/
theorem spec_C4_desanitize :
    desanitize none = [] ∧
    sanitize none = codes "N/A" ∧
    (∀ s, desanitize (some s) = shift_edges_chars s shift_char_backward 2) ∧
    desanitize (some (codes "N/A")) = codes "M/Z" := by
  refine ⟨rfl, rfl, fun s => rfl, by decide⟩

/-- C7: the concrete scenarios of the spec: `sanitize "ab_12" = "bc_23"`
and back (first two non-space characters and last two shifted once each,
underscore untouched), and `sanitize "z9" = "b1"` and back (every
position shifted by both scans on a string with fewer than 4 non-space
characters: `z→a→b`, `9→0→1`). -/
theorem spec_C7_scenarios :
    sanitize (some (codes "ab_12")) = codes "bc_23" ∧
    desanitize (some (codes "bc_23")) = codes "ab_12" ∧
    sanitize (some (codes "z9")) = codes "b1" ∧
    desanitize (some (codes "b1")) = codes "z9" := by
  refine ⟨by decide, by decide, by decide, by decide⟩

/-! ### C5: shape of the rewritten header and rows -/

/-- Counterexample to C5 as stated: on the header
`["id", "External Part", "qty"]` with the policy entry
`"external part" ↦ "external_part_sanitized"`, the engine does not emit
the four-column appended header — it rewrites the matched column in
place, so the original column name is not retained. -/
theorem spec_C5_counterexample :
    sanitizeHeaderRow [some (codes "id"), some (codes "External Part"), some (codes "qty")] ≠
      [some (codes "id"), some (codes "External Part"),
        some (codes "external_part_sanitized"), some (codes "qty")] := by
  decide

/-- C5 as amended: the engine implements only the replace strategy.  On
the header `["id", "External Part", "qty"]` it emits
`["id", "external_part_sanitized", "qty"]` — the matched column renamed
in place at position 1 — and every data row of three cells has exactly
the cell at position 1 replaced by its sanitized value, with no cell
added. -/
theorem spec_C5_replace (a b c : Option (List Nat)) :
    sanitizeHeaderRow [some (codes "id"), some (codes "External Part"), some (codes "qty")] =
      [some (codes "id"), some (codes "external_part_sanitized"), some (codes "qty")] ∧
    processedIndices [some (codes "id"), some (codes "External Part"), some (codes "qty")]
      = [1] ∧
    sanitizeDataRow
        (processedIndices [some (codes "id"), some (codes "External Part"), some (codes "qty")])
        [a, b, c]
      = [a, some (sanitize b), c] := by
  have hp : processedIndices
      [some (codes "id"), some (codes "External Part"), some (codes "qty")] = [1] := by
    decide
  refine ⟨by decide, hp, ?_⟩
  rw [hp]
  simp [sanitizeDataRow, sanitizeRowFrom]

/-! ### C6: row lengths -/

/-- Counterexample to C6 as stated: on the header
`["id", "External Part", "qty"]`, a data row holding a single cell is
emitted with length 1, not padded with nulls to the header length 3. -/
theorem spec_C6_counterexample :
    (sanitizeDataRow
        (processedIndices [some (codes "id"), some (codes "External Part"), some (codes "qty")])
        [some (codes "x")]).length ≠
      (sanitizeHeaderRow
        [some (codes "id"), some (codes "External Part"), some (codes "qty")]).length := by
  decide

theorem length_sanitizeRowFrom (procIdx : List Nat) (i : Nat) (row : List (Option (List Nat))) :
    (sanitizeRowFrom procIdx i row).length = row.length := by
  induction row generalizing i with
  | nil => rfl
  | cons v rest ih => simp [sanitizeRowFrom, ih]

/-- C6 as amended: every row the engine emits has exactly the length of
the row it was given (transformation is cell-for-cell in place), and the
output header likewise has the input header's length; hence output rows
match the header length exactly when input rows do.  A row shorter than
the header is emitted at its own length — missing cells are simply never
visited, not filled with nulls — and no row is dropped and no error is
raised (the transformation is a total function). -/
theorem spec_C6_row_shape :
    (∀ procIdx row, (sanitizeDataRow procIdx row).length = row.length) ∧
    (∀ header, (sanitizeHeaderRow header).length = header.length) := by
  constructor
  · intro procIdx row
    exact length_sanitizeRowFrom procIdx 0 row
  · intro header
    simp [sanitizeHeaderRow]

/-! ### C8: memoization -/

theorem lookup_valid {cache : List (Option (List Nat) × List Nat)} (h : ValidCache cache)
    (v : Option (List Nat)) (r : List Nat) (hl : List.lookup v cache = some r) :
    r = sanitize v := by
  induction cache with
  | nil => simp [List.lookup] at hl
  | cons p rest ih =>
    obtain ⟨k, b⟩ := p
    rw [List.lookup] at hl
    cases hbeq : v == k with
    | true =>
        rw [hbeq] at hl
        simp only [Option.some.injEq] at hl
        have hk : v = k := eq_of_beq hbeq
        subst hk
        have hb : b = sanitize v := h (v, b) (List.mem_cons_self _ _)
        rw [← hl]
        exact hb
    | false =>
        rw [hbeq] at hl
        exact ih (fun q hq => h q (List.mem_cons_of_mem _ hq)) hl

theorem memoRun_hit_count (v : Option (List Nat)) (cache : List (Option (List Nat) × List Nat))
    (r : List Nat) (hl : List.lookup v cache = some r) (m : Nat) :
    (memoRun (List.replicate m v) cache).2.2 = 0 ∧
    (memoRun (List.replicate m v) cache).1 = List.replicate m r := by
  induction m with
  | zero => exact ⟨rfl, rfl⟩
  | succ m ih =>
    rw [List.replicate_succ]
    simp only [memoRun, hl]
    exact ⟨ih.1, by rw [List.replicate_succ, ih.2]⟩

/-- C8: a memoized call returns the cached binding on a hit and computes,
stores and returns `sanitize` of the value on a miss; as long as the
cache holds only bindings written by earlier memoized calls, every call
returns exactly `sanitize` of its argument and leaves such a cache
behind; and a column pass over a value repeated `n > 0` times performs
exactly one underlying `sanitize` computation while returning the same
sanitized string for every occurrence. -/
theorem spec_C8_memo (v : Option (List Nat)) (cache : List (Option (List Nat) × List Nat))
    (h : ValidCache cache) :
    (memo_sanitize v cache).1 = sanitize v ∧
    ValidCache (memo_sanitize v cache).2 ∧
    (∀ r, List.lookup v cache = some r → memo_sanitize v cache = (r, cache)) ∧
    (List.lookup v cache = none →
      memo_sanitize v cache = (sanitize v, (v, sanitize v) :: cache)) ∧
    (∀ n, 0 < n → (memoRun (List.replicate n v) []).2.2 = 1 ∧
      (memoRun (List.replicate n v) []).1 = List.replicate n (sanitize v)) := by
  refine ⟨?_, ?_, ?_, ?_, ?_⟩
  · unfold memo_sanitize
    cases hl : List.lookup v cache with
    | none => rfl
    | some r => exact lookup_valid h v r hl
  · unfold memo_sanitize
    cases hl : List.lookup v cache with
    | none =>
        intro p hp
        rcases List.mem_cons.mp hp with hp | hp
        · subst hp; rfl
        · exact h p hp
    | some r => exact h
  · intro r hl
    unfold memo_sanitize
    rw [hl]
  · intro hl
    unfold memo_sanitize
    rw [hl]
  · intro n hn
    obtain ⟨m, rfl⟩ : ∃ m, n = m + 1 := ⟨n - 1, by omega⟩
    rw [List.replicate_succ]
    have hl0 : List.lookup v ([] : List (Option (List Nat) × List Nat)) = none := rfl
    simp only [memoRun, hl0]
    have hl1 : List.lookup v [(v, sanitize v)] = some (sanitize v) := by
      simp [List.lookup]
    have hrun := memoRun_hit_count v [(v, sanitize v)] (sanitize v) hl1 m
    exact ⟨by rw [hrun.1], by rw [List.replicate_succ, hrun.2]⟩

/-- Witness for C8: the empty cache is valid, a first call on `"X1"`
computes `sanitize "X1"`, and a pass over `"X1"` repeated 1000 times does
exactly one computation. -/
theorem spec_C8_memo_witness :
    ValidCache [] ∧
    (memo_sanitize (some (codes "X1")) []).1 = sanitize (some (codes "X1")) ∧
    (memoRun (List.replicate 1000 (some (codes "X1"))) []).2.2 = 1 := by
  have h : ValidCache ([] : List (Option (List Nat) × List Nat)) := by
    intro p hp
    simp at hp
  exact ⟨h, (spec_C8_memo (some (codes "X1")) [] h).1,
    ((spec_C8_memo (some (codes "X1")) [] h).2.2.2.2 1000 (by decide)).1⟩

/-! ### C9: column-name resolution -/

/-- Counterexample to C9 as stated: two column names differing only in
letter case need not resolve to the same output name — for a name the
policy does not list, the fallback appends `"_sanitized"` to the original
spelling, so `"Qty"` and `"qty"` resolve differently. -/
theorem spec_C9_counterexample :
    lowerStr (codes "Qty") = lowerStr (codes "qty") ∧
    get_sanitized_column_name (codes "Qty") ≠ get_sanitized_column_name (codes "qty") := by
  constructor <;> decide

/-- C9 as amended: resolution is a pure function of the column name (the
same name always resolves to the same output name), and it is
case-insensitive on every name the policy lists: when the lowercased name
is a policy key, two spellings with the same lowercasing resolve to the
same output name, in both the sanitizing and the desanitizing
direction.  For unlisted names the fallback keeps the original spelling,
so differently-cased unlisted names resolve differently. -/
theorem spec_C9_resolution (a b : List Nat) (h : lowerStr a = lowerStr b) :
    ((List.lookup (lowerStr a) SANITIZATION_COLUMNS).isSome = true →
      get_sanitized_column_name a = get_sanitized_column_name b) ∧
    ((List.lookup (lowerStr a) DESANITIZATION_COLUMNS).isSome = true →
      get_desanitized_column_name a = get_desanitized_column_name b) := by
  constructor
  · intro hm
    obtain ⟨r, hr⟩ := Option.isSome_iff_exists.mp hm
    unfold get_sanitized_column_name
    rw [← h, hr]
    rfl
  · intro hm
    obtain ⟨r, hr⟩ := Option.isSome_iff_exists.mp hm
    unfold get_desanitized_column_name
    rw [← h, hr]
    rfl

/-- Witness for the amended C9 at the names of the spec scenario. -/
theorem spec_C9_resolution_witness :
    get_sanitized_column_name (codes "External Part") =
      get_sanitized_column_name (codes "external part") ∧
    get_desanitized_column_name (codes "External Part ID") =
      get_desanitized_column_name (codes "external part id") :=
  ⟨(spec_C9_resolution (codes "External Part") (codes "external part") (by decide)).1
      (by decide),
    (spec_C9_resolution (codes "External Part ID") (codes "external part id") (by decide)).2
      (by decide)⟩

/-! ### C10: length and space positions are invariant -/

/-- C10: for every string, every count, and both shift functions of the
program, the edge transform preserves the length of the string and the
positions of its spaces exactly: position `i` of the result is a space
precisely when position `i` of the input is. -/
theorem spec_C10_shape (s : List Nat) (count : Nat) (f : Nat → Nat)
    (hf : f = shift_char_forward ∨ f = shift_char_backward) :
    (shift_edges_chars s f count).length = s.length ∧
    spaceMask (shift_edges_chars s f count) = spaceMask s := by
  have hps : PreservesSpace f := by
    rcases hf with h | h
    · rw [h]; exact preservesSpace_shift_char_forward
    · rw [h]; exact preservesSpace_shift_char_backward
  unfold shift_edges_chars
  exact ⟨by rw [length_shiftLastK, length_shiftFirstK],
    by rw [spaceMask_shiftLastK hps, spaceMask_shiftFirstK hps]⟩

/-- Witness for C10 on a string with an interior space. -/
theorem spec_C10_shape_witness :
    (shift_edges_chars (codes "a b") shift_char_forward 2).length = (codes "a b").length ∧
    spaceMask (shift_edges_chars (codes "a b") shift_char_forward 2) = spaceMask (codes "a b") :=
  spec_C10_shape (codes "a b") 2 shift_char_forward (Or.inl rfl)
